import Mathlib

/-
Verification of the bit-banged SPI master (package spi of ziutek/bitbang)
against its natural-language specification.

The definitions below are a shallow embedding of the Go source:
  * spi/spi.go        -- the concurrent Master (writer trace, reader loop)
  * unnamed part_002  -- the sibling revision of that Master (werr guards,
                         discard/Read with the dr flag)
Bytes are modelled as Nat (all operations stay below 256 where the Go code
uses byte; the Go `uint` accumulators are modelled as unbounded Nat, which is
exact because they never exceed 2^15 here).  Go `int` counters that can be
negative (flen, fn) are modelled as Int.  Driver and coordinator-channel
interaction is modelled by explicit lists: the sequence of bytes handed to
the driver, and the FIFO of int8 directives.  Error paths are modelled with
explicit outcome types where a claim needs them.
-/

set_option maxRecDepth 4000

namespace BitbangSpi

/-- Mode bitset, as in `type Mode int` of spi.go. -/
abbrev Mode := Nat

/-- LSBF flag bit (spi.go: `LSBF Mode = 1`). -/
def lsbfBit : Mode := 1

/-- CPOL1 flag bit (spi.go: `CPOL1 Mode = 2`). -/
def cpol1Bit : Mode := 2

/-- CPHA1 flag bit (spi.go: `CPHA1 Mode = 4`). -/
def cpha1Bit : Mode := 4

/-- Config, as in spi.go: Mode plus FrameLen and Delay (both Go int). -/
structure Config where
  mode : Mode
  frameLen : Int
  delay : Int
deriving DecidableEq

/-- The write-side fields of spi.go's Master (driver handle, mutex and the
coordinator channel are modelled separately where a claim needs them). -/
structure Master where
  sclk : Nat
  mosi : Nat
  miso : Nat
  base : Nat
  cidle : Nat
  cfirst : Nat
  cpha1 : Bool
  lsbf : Bool
  flen : Int
  delay : Nat
  fn : Int
  pre : List Nat
  post : List Nat
deriving DecidableEq

/-- Master.init of spi.go: panics when sclk&mosi != 0 (modelled as `none`),
otherwise all remaining fields take their Go zero values. -/
def newMaster (sclk mosi miso : Nat) : Option Master :=
  if sclk &&& mosi ≠ 0 then none
  else some ⟨sclk, mosi, miso, 0, 0, 0, false, false, 0, 0, 0, [], []⟩

/-- Master.SetBase of spi.go. -/
def setBase (ma : Master) (b : Nat) : Master := { ma with base := b }

/-- Master.SetPrePost of spi.go. -/
def setPrePost (ma : Master) (p q : List Nat) : Master := { ma with pre := p, post := q }

/-- Master.Configure of spi.go: derives cpha1, cidle, cfirst, lsbf from the
mode bits, validates Delay ∈ [0,8] and FrameLen ≥ 1 (panic modelled as
`none`), stores flen = -FrameLen and delay. -/
def configure (ma : Master) (cfg : Config) : Option Master :=
  let cpha1 := cfg.mode &&& cpha1Bit ≠ 0
  let cidle := if cfg.mode &&& cpol1Bit = 0 then 0 else ma.sclk
  let cfirst :=
    if cfg.mode &&& cpol1Bit = 0 then
      (if cpha1 then ma.sclk else 0)
    else
      (if cpha1 then 0 else ma.sclk)
  if cfg.delay < 0 ∨ 8 < cfg.delay then none
  else if cfg.frameLen ≤ 0 then none
  else some { ma with
    cpha1 := decide cpha1, cidle := cidle, cfirst := cfirst,
    lsbf := decide (cfg.mode &&& lsbfBit ≠ 0),
    flen := -cfg.frameLen, delay := cfg.delay.toNat }

/-- The per-bit encoding loop of writeByte (spi.go lines 240..253): each data
bit becomes the pair (out, out^sclk) with out = base|cfirst|(mosi if the
masked bit of the shifting accumulator is set); k counts remaining bits. -/
def encLoop (base cfirst mosi sclk : Nat) (lsbf : Bool) (mask : Nat) :
    Nat → Nat → List Nat
  | _, 0 => []
  | u, k + 1 =>
    let out := base ||| cfirst ||| (if mask &&& u ≠ 0 then mosi else 0)
    out :: (out ^^^ sclk) ::
      encLoop base cfirst mosi sclk lsbf mask (if lsbf then u >>> 1 else u <<< 1) k

/-- The initial mask of the write entry points: 0x80 for MSB-first,
0x01 for LSB-first. -/
def spiMask (lsbf : Bool) : Nat := if lsbf then 1 else 128

/-- The 16-sample window writeByte produces for one data byte. -/
def encodeByte (ma : Master) (b : Nat) : List Nat :=
  encLoop ma.base ma.cfirst ma.mosi ma.sclk ma.lsbf (spiMask ma.lsbf) b 8

/-- The decode loop of Read (spi.go lines 408..424): only the second sample
of each pair is tested against miso; MSB-first shifts the accumulator left,
LSB-first shifts it right setting bit 7. -/
def decLoop (lsbf : Bool) (miso : Nat) : List Nat → Nat → Nat
  | [], u => u
  | [_], u => u
  | _ :: x :: rest, u =>
    decLoop lsbf miso rest
      (if lsbf then (u >>> 1) ||| (if x &&& miso ≠ 0 then 128 else 0)
       else (u <<< 1) ||| (if x &&& miso ≠ 0 then 1 else 0))

/-- Decoding one 16-sample window, as Read does with the master's lsbf/miso. -/
def decodeByte (ma : Master) (w : List Nat) : Nat :=
  decLoop ma.lsbf ma.miso w 0

section BitHelpers

/-- Conjunction distributes over disjunction on Nat bitmasks. -/
theorem natOrAndRight (a b c : Nat) :
    (a ||| b) &&& c = (a &&& c) ||| (b &&& c) := by
  apply Nat.eq_of_testBit_eq
  intro k
  simp [Nat.testBit_or, Nat.testBit_and, Bool.and_or_distrib_right]

/-- Xor with a mask disjoint from c does not change the c-bits. -/
theorem xorAndOfDisjoint (a b c : Nat) (h : b &&& c = 0) :
    (a ^^^ b) &&& c = a &&& c := by
  rw [Nat.and_xor_distrib_right, h, Nat.xor_zero]

/-- Masking with a power of two is nonzero exactly when the bit is set. -/
theorem andTwoPowNeZero (x j : Nat) : (2 ^ j &&& x ≠ 0) ↔ x.testBit j := by
  constructor
  · intro h
    by_contra hb
    apply h
    apply Nat.eq_of_testBit_eq
    intro k
    simp only [Nat.testBit_and, Nat.testBit_two_pow, Nat.zero_testBit]
    rcases eq_or_ne j k with rfl | hk
    · simp [Bool.not_eq_true] at hb
      simp [hb]
    · simp [hk]
  · intro h hz
    have : (2 ^ j &&& x).testBit j = false := by simp [hz]
    simp [Nat.testBit_and, Nat.testBit_two_pow, h] at this

/-- The sampled (second) half of a bit cell tests positive against mosi
exactly when the encoder set the mosi bit, provided sclk, cfirst and base are
all disjoint from mosi and mosi is nonzero. -/
theorem sampleBit (sclk mosi cfirst base : Nat) (c : Prop) [Decidable c]
    (hsm : sclk &&& mosi = 0) (hcf : cfirst &&& mosi = 0)
    (hbm : base &&& mosi = 0) (hm : mosi ≠ 0) :
    (((base ||| cfirst ||| (if c then mosi else 0)) ^^^ sclk) &&& mosi ≠ 0) ↔ c := by
  rw [xorAndOfDisjoint _ _ _ hsm, natOrAndRight, natOrAndRight, hbm, hcf]
  by_cases h : c <;> simp [h, Nat.and_self, hm]

/-- The unsampled (first) half of a bit cell tests positive against mosi
exactly when the encoder set the mosi bit. -/
theorem firstHalfBit (mosi cfirst base : Nat) (c : Prop) [Decidable c]
    (hcf : cfirst &&& mosi = 0) (hbm : base &&& mosi = 0) (hm : mosi ≠ 0) :
    ((base ||| cfirst ||| (if c then mosi else 0)) &&& mosi ≠ 0) ↔ c := by
  rw [natOrAndRight, natOrAndRight, hbm, hcf]
  by_cases h : c <;> simp [h, Nat.and_self, hm]

/-- Disjoint bitmasks or-combine additively. -/
theorem orEqAddOfDisjoint (a : Nat) : ∀ b, a &&& b = 0 → a ||| b = a + b := by
  induction a using Nat.binaryRec with
  | z => intro b _; simp
  | f a0 a ih =>
    intro b hab
    cases b using Nat.bitCasesOn with
    | h b0 b =>
      rw [Nat.land_bit, Nat.bit_eq_zero_iff] at hab
      obtain ⟨h1, h2⟩ := hab
      rw [Nat.lor_bit, ih b h1]
      cases a0 <;> cases b0 <;> simp_all [Nat.bit] <;> ring

/-- Oring a single bit onto a doubled accumulator is addition. -/
theorem orTwoMulBit (a t : Nat) (ht : t ≤ 1) : 2 * a ||| t = 2 * a + t := by
  apply orEqAddOfDisjoint
  interval_cases t
  · simp
  · rw [Nat.and_one_is_mod]; omega

/-- Oring bit 7 onto an accumulator below 128 is addition. -/
theorem orBit7 (a : Nat) (h : a < 128) : a ||| 128 = a + 128 := by
  apply orEqAddOfDisjoint
  by_contra hne
  have h7 : a.testBit 7 := (andTwoPowNeZero a 7).mp (by
    rw [Nat.and_comm] at hne
    simpa using hne)
  have hz : a / 2 ^ 7 = 0 := Nat.div_eq_of_lt (lt_of_lt_of_le h (by norm_num))
  rw [Nat.testBit_to_div_mod, hz] at h7
  simp at h7

end BitHelpers

section RoundTrip

/-- Decoding an MSB-first encoded window appends the top k bits of the
accumulator u below acc, provided the line masks are disjoint. -/
theorem decEncMsbf (base cfirst mosi sclk : Nat)
    (hsm : sclk &&& mosi = 0) (hcf : cfirst &&& mosi = 0)
    (hbm : base &&& mosi = 0) (hm : mosi ≠ 0) :
    ∀ k, k ≤ 8 → ∀ u acc,
      decLoop false mosi (encLoop base cfirst mosi sclk false 128 u k) acc
        = acc * 2 ^ k + u / 2 ^ (8 - k) % 2 ^ k := by
  intro k
  induction k with
  | zero => intro _ u acc; simp [encLoop, decLoop, Nat.mod_one]
  | succ k ih =>
    intro hk u acc
    have hk8 : k ≤ 8 := Nat.le_of_succ_le hk
    rw [encLoop, decLoop]
    simp only [Bool.false_eq_true, if_false]
    have hcond : (((base ||| cfirst ||| (if 128 &&& u ≠ 0 then mosi else 0)) ^^^ sclk)
        &&& mosi ≠ 0) ↔ (128 &&& u ≠ 0) :=
      sampleBit sclk mosi cfirst base _ hsm hcf hbm hm
    have hbit : (128 &&& u ≠ 0) ↔ u / 2 ^ 7 % 2 = 1 := by
      rw [show (128 : Nat) = 2 ^ 7 from rfl, andTwoPowNeZero, Nat.testBit_to_div_mod]
      simp
    have ht : (if ((base ||| cfirst ||| (if 128 &&& u ≠ 0 then mosi else 0)) ^^^ sclk)
        &&& mosi ≠ 0 then (1 : Nat) else 0)
        = (if u / 2 ^ 7 % 2 = 1 then 1 else 0) :=
      if_congr (hcond.trans hbit) rfl rfl
    rw [ht, ih hk8]
    have hacc : acc <<< 1 ||| (if u / 2 ^ 7 % 2 = 1 then (1 : Nat) else 0)
        = 2 * acc + (if u / 2 ^ 7 % 2 = 1 then 1 else 0) := by
      rw [Nat.shiftLeft_eq, pow_one, mul_comm acc 2, orTwoMulBit]
      split <;> omega
    rw [hacc]
    have hku : 8 - k = (7 - k) + 1 := by omega
    have hdiv : u <<< 1 / 2 ^ (8 - k) = u / 2 ^ (7 - k) := by
      rw [hku, pow_succ, Nat.shiftLeft_eq, pow_one, Nat.mul_div_mul_right _ _ (by norm_num)]
    have hd7 : u / 2 ^ 7 = u / 2 ^ (7 - k) / 2 ^ k := by
      rw [Nat.div_div_eq_div_mul, ← pow_add]
      congr 2
      omega
    have h8k : 8 - (k + 1) = 7 - k := by omega
    rw [hdiv, hd7, h8k]
    generalize u / 2 ^ (7 - k) = d
    rw [pow_succ, Nat.mod_mul]
    have hsel : (if d / 2 ^ k % 2 = 1 then (1 : Nat) else 0) = d / 2 ^ k % 2 := by
      split <;> omega
    rw [hsel]
    ring

/-- Decoding an LSB-first encoded window pushes the low k bits of u into the
top of the byte-accumulator, provided the line masks are disjoint. -/
theorem decEncLsbf (base cfirst mosi sclk : Nat)
    (hsm : sclk &&& mosi = 0) (hcf : cfirst &&& mosi = 0)
    (hbm : base &&& mosi = 0) (hm : mosi ≠ 0) :
    ∀ k, k ≤ 8 → ∀ u acc, acc < 256 →
      decLoop true mosi (encLoop base cfirst mosi sclk true 1 u k) acc
        = acc / 2 ^ k + u % 2 ^ k * 2 ^ (8 - k) := by
  intro k
  induction k with
  | zero => intro _ u acc _; simp [encLoop, decLoop, Nat.mod_one]
  | succ k ih =>
    intro hk u acc hacc256
    have hk8 : k ≤ 8 := Nat.le_of_succ_le hk
    rw [encLoop, decLoop]
    simp only [if_true]
    have hcond : (((base ||| cfirst ||| (if 1 &&& u ≠ 0 then mosi else 0)) ^^^ sclk)
        &&& mosi ≠ 0) ↔ (1 &&& u ≠ 0) :=
      sampleBit sclk mosi cfirst base _ hsm hcf hbm hm
    have hbit : (1 &&& u ≠ 0) ↔ u % 2 = 1 := by
      rw [Nat.and_comm, Nat.and_one_is_mod]
      omega
    have ht : (if ((base ||| cfirst ||| (if 1 &&& u ≠ 0 then mosi else 0)) ^^^ sclk)
        &&& mosi ≠ 0 then (128 : Nat) else 0)
        = (if u % 2 = 1 then 128 else 0) :=
      if_congr (hcond.trans hbit) rfl rfl
    rw [ht]
    have hacc : acc >>> 1 ||| (if u % 2 = 1 then (128 : Nat) else 0)
        = acc / 2 + (if u % 2 = 1 then 1 else 0) * 128 := by
      rw [Nat.shiftRight_eq_div_pow, pow_one]
      split
      · rw [orBit7 _ (by omega), one_mul]
      · simp
    rw [hacc, ih hk8 (u >>> 1) (acc / 2 + (if u % 2 = 1 then 1 else 0) * 128)
      (by split <;> omega)]
    have hmod : u % 2 ^ (k + 1) = u % 2 + 2 * (u / 2 % 2 ^ k) := by
      rw [pow_succ, mul_comm (2 ^ k) 2, Nat.mod_mul]
    rw [Nat.shiftRight_eq_div_pow, pow_one, hmod]
    have hdivacc : (acc / 2 + (if u % 2 = 1 then 1 else 0) * 128) / 2 ^ k
        = acc / 2 ^ (k + 1) + (if u % 2 = 1 then 1 else 0) * 2 ^ (7 - k) := by
      have h128 : (128 : Nat) = 2 ^ (7 - k) * 2 ^ k := by
        rw [← pow_add, show 7 - k + k = 7 by omega]
        norm_num
      have h2 : acc / 2 / 2 ^ k = acc / 2 ^ (k + 1) := by
        rw [Nat.div_div_eq_div_mul, pow_succ, mul_comm]
      rw [h128, ← mul_assoc, Nat.add_mul_div_right _ _ (Nat.two_pow_pos k), h2]
    rw [hdivacc]
    have hto : (if u % 2 = 1 then 1 else 0) = u % 2 := by split <;> omega
    rw [hto]
    have h7k : 8 - (k + 1) = 7 - k := by omega
    rw [h7k]
    have h8 : (2 : Nat) ^ (8 - k) = 2 ^ (7 - k) * 2 := by
      rw [← pow_succ]
      congr 1
      omega
    rw [h8]
    ring

end RoundTrip

section Claim1

/-- Claim C1: for every mode configuration (MSBF/LSBF, CPOL0/1, CPHA0/1) and
every byte b in [0,255], encoding b into its 16-sample line-word window (as
writeByte does) and then decoding that same window (as Read's decode loop
does, sampling the odd-index samples against the miso mask) returns b.  The
mask hypotheses state the loopback reading of the round trip: miso reads the
line that mosi drives, and neither base nor sclk aliases it. -/
theorem claimC1 (sclk mosi miso baseByte : Nat) (cfg : Config) (m0 ma : Master) (b : Nat)
    (hnew : newMaster sclk mosi miso = some m0)
    (hcfg : configure (setBase m0 baseByte) cfg = some ma)
    (hbm : baseByte &&& mosi = 0) (hm : mosi ≠ 0) (hmiso : miso = mosi)
    (hb : b < 256) :
    decodeByte ma (encodeByte ma b) = b := by
  subst hmiso
  by_cases hdisj : sclk &&& miso ≠ 0
  · simp [newMaster, hdisj] at hnew
  · rw [not_not] at hdisj
    rw [newMaster, if_neg (by simpa using hdisj)] at hnew
    rw [Option.some.injEq] at hnew
    subst hnew
    rw [configure] at hcfg
    split at hcfg
    · exact absurd hcfg (by simp)
    · split at hcfg
      · exact absurd hcfg (by simp)
      · rw [Option.some.injEq] at hcfg
        subst hcfg
        rw [decodeByte, encodeByte]
        simp only [setBase]
        set cf := (if cfg.mode &&& cpol1Bit = 0 then if cfg.mode &&& cpha1Bit ≠ 0 then sclk else 0
          else if cfg.mode &&& cpha1Bit ≠ 0 then 0 else sclk) with hcfdef
        have hcf : cf &&& miso = 0 := by
          rw [hcfdef]
          split_ifs <;> simp [hdisj, Nat.zero_and]
        by_cases hl : cfg.mode &&& lsbfBit ≠ 0
        · rw [decide_eq_true hl]
          simp only [spiMask, if_true]
          rw [decEncLsbf baseByte cf miso sclk hdisj hcf hbm hm 8 (by norm_num) b 0 (by norm_num)]
          simpa using Nat.mod_eq_of_lt hb
        · rw [decide_eq_false hl]
          simp only [spiMask, Bool.false_eq_true, if_false]
          rw [decEncMsbf baseByte cf miso sclk hdisj hcf hbm hm 8 (by norm_num) b 0]
          simpa using Nat.mod_eq_of_lt hb

/-- The fresh master of the repo's own test harness, lifted to a loopback
(miso = mosi): NewMaster with sclk=0x01, mosi=0x10, miso=0x10. -/
def tFreshLoop : Master := ⟨1, 16, 16, 0, 0, 0, false, false, 0, 0, 0, [], []⟩

/-- tFreshLoop after Configure with mode M00, FrameLen 1, Delay 0. -/
def tConfLoop : Master := ⟨1, 16, 16, 0, 0, 0, false, false, -1, 0, 0, [], []⟩

/-- Witness for claim C1 at mode M00, masks sclk=1 mosi=miso=16, byte 0x55. -/
theorem claimC1_witness :
    newMaster 1 16 16 = some tFreshLoop
      ∧ configure (setBase tFreshLoop 0) ⟨0, 1, 0⟩ = some tConfLoop
      ∧ decodeByte tConfLoop (encodeByte tConfLoop 85) = 85 :=
  ⟨by decide, by decide,
    claimC1 1 16 16 0 ⟨0, 1, 0⟩ tFreshLoop tConfLoop 85 (by decide) (by decide)
      (by decide) (by decide) rfl (by decide)⟩

end Claim1

section Claim2

/-- Iterated per-bit shift of the data accumulator: right shifts for
LSB-first, left shifts for MSB-first, as in the encoder loop. -/
def shiftN (lsbf : Bool) : Nat → Nat → Nat
  | u, 0 => u
  | u, i + 1 => shiftN lsbf (if lsbf then u >>> 1 else u <<< 1) i

/-- Unfolding the fields of a freshly created, base-set and configured
master: the masks are disjoint and every derived field is determined by the
mode bits exactly as Configure computes them. -/
theorem configuredFields (sclk mosi miso baseByte : Nat) (cfg : Config) (m0 ma : Master)
    (hnew : newMaster sclk mosi miso = some m0)
    (hcfg : configure (setBase m0 baseByte) cfg = some ma) :
    sclk &&& mosi = 0 ∧ 0 < cfg.frameLen ∧ 0 ≤ cfg.delay ∧ cfg.delay ≤ 8 ∧
    ma = ⟨sclk, mosi, miso, baseByte,
      (if cfg.mode &&& cpol1Bit = 0 then 0 else sclk),
      (if cfg.mode &&& cpol1Bit = 0 then (if cfg.mode &&& cpha1Bit ≠ 0 then sclk else 0)
       else (if cfg.mode &&& cpha1Bit ≠ 0 then 0 else sclk)),
      decide (cfg.mode &&& cpha1Bit ≠ 0), decide (cfg.mode &&& lsbfBit ≠ 0),
      -cfg.frameLen, cfg.delay.toNat, 0, [], []⟩ := by
  by_cases hdisj : sclk &&& mosi ≠ 0
  · simp [newMaster, hdisj] at hnew
  · rw [not_not] at hdisj
    rw [newMaster, if_neg (by simpa using hdisj)] at hnew
    rw [Option.some.injEq] at hnew
    subst hnew
    rw [configure] at hcfg
    split at hcfg
    · exact absurd hcfg (by simp)
    · split at hcfg
      · exact absurd hcfg (by simp)
      · rw [Option.some.injEq] at hcfg
        subst hcfg
        refine ⟨hdisj, by omega, by omega, by omega, rfl⟩

/-- Length of the encoder output: two samples per remaining bit. -/
theorem encLoopLength (base cfirst mosi sclk : Nat) (lsbf : Bool) (mask : Nat) :
    ∀ k u, (encLoop base cfirst mosi sclk lsbf mask u k).length = 2 * k := by
  intro k
  induction k with
  | zero => intro u; simp [encLoop]
  | succ k ih =>
    intro u
    rw [encLoop]
    simp only [List.length_cons, ih]
    omega

/-- The even-index samples of the encoder output. -/
theorem encLoopGetDEven (base cfirst mosi sclk : Nat) (lsbf : Bool) (mask : Nat) :
    ∀ k i u, i < k →
      (encLoop base cfirst mosi sclk lsbf mask u k).getD (2 * i) 0
        = base ||| cfirst ||| (if mask &&& shiftN lsbf u i ≠ 0 then mosi else 0) := by
  intro k
  induction k with
  | zero => intro i u h; omega
  | succ k ih =>
    intro i u hi
    rw [encLoop]
    cases i with
    | zero => simp [shiftN]
    | succ i =>
      have h2 : 2 * (i + 1) = 2 * i + 1 + 1 := by ring
      rw [h2, List.getD_cons_succ, List.getD_cons_succ, ih i _ (by omega), shiftN]

/-- The odd-index samples of the encoder output: the even sample xor sclk. -/
theorem encLoopGetDOdd (base cfirst mosi sclk : Nat) (lsbf : Bool) (mask : Nat) :
    ∀ k i u, i < k →
      (encLoop base cfirst mosi sclk lsbf mask u k).getD (2 * i + 1) 0
        = (base ||| cfirst ||| (if mask &&& shiftN lsbf u i ≠ 0 then mosi else 0)) ^^^ sclk := by
  intro k
  induction k with
  | zero => intro i u h; omega
  | succ k ih =>
    intro i u hi
    rw [encLoop]
    cases i with
    | zero => simp [shiftN]
    | succ i =>
      have h2 : 2 * (i + 1) + 1 = 2 * i + 1 + 1 + 1 := by ring
      rw [h2, List.getD_cons_succ, List.getD_cons_succ, ih i _ (by omega), shiftN]

/-- MSB-first shifting is iterated left shift. -/
theorem shiftNMsbf : ∀ i u, shiftN false u i = u <<< i := by
  intro i
  induction i with
  | zero => intro u; simp [shiftN]
  | succ i ih =>
    intro u
    rw [shiftN]
    simp only [Bool.false_eq_true, if_false]
    rw [ih]
    rw [Nat.shiftLeft_eq, Nat.shiftLeft_eq, Nat.shiftLeft_eq, pow_one, pow_succ]
    ring

/-- LSB-first shifting is iterated right shift. -/
theorem shiftNLsbf : ∀ i u, shiftN true u i = u >>> i := by
  intro i
  induction i with
  | zero => intro u; simp [shiftN]
  | succ i ih =>
    intro u
    rw [shiftN]
    simp only [if_true]
    rw [ih]
    rw [Nat.shiftRight_eq_div_pow, Nat.shiftRight_eq_div_pow, Nat.shiftRight_eq_div_pow,
      pow_one, pow_succ, Nat.div_div_eq_div_mul]
    ring_nf

/-- The MSB-first bit test of the encoder selects bit 7-i of the data byte. -/
theorem msbfBitTest (b i : Nat) (hi : i ≤ 7) :
    (128 &&& (b <<< i) ≠ 0) ↔ b.testBit (7 - i) := by
  rw [show (128 : Nat) = 2 ^ 7 from rfl, andTwoPowNeZero, Nat.testBit_shiftLeft]
  simp [hi]

/-- The LSB-first bit test of the encoder selects bit i of the data byte. -/
theorem lsbfBitTest (b i : Nat) : (1 &&& (b >>> i) ≠ 0) ↔ b.testBit i := by
  rw [show (1 : Nat) = 2 ^ 0 from rfl, andTwoPowNeZero, Nat.testBit_shiftRight]
  simp

/-- Claim C2: for every configuration and every data byte b, the 16-byte
window produced by the encoder satisfies: buf[2i+1] = buf[2i] ^ sclk for
every i in [0,8); every bit position outside the sclk and mosi masks equals
the corresponding bit of base; and (buf[2i] & mosi) != 0 exactly when bit i
of b, taken in the configured bit order, is set. -/
theorem claimC2 (sclk mosi miso baseByte : Nat) (cfg : Config) (m0 ma : Master) (b : Nat)
    (hnew : newMaster sclk mosi miso = some m0)
    (hcfg : configure (setBase m0 baseByte) cfg = some ma)
    (hbm : baseByte &&& mosi = 0) (hm : mosi ≠ 0) :
    (∀ i, i < 8 →
      (encodeByte ma b).getD (2 * i + 1) 0 = (encodeByte ma b).getD (2 * i) 0 ^^^ sclk)
    ∧ (∀ j, j < 16 → ∀ k, sclk.testBit k = false → mosi.testBit k = false →
      ((encodeByte ma b).getD j 0).testBit k = baseByte.testBit k)
    ∧ (∀ i, i < 8 →
      ((encodeByte ma b).getD (2 * i) 0 &&& mosi ≠ 0 ↔
        b.testBit (if ma.lsbf then i else 7 - i))) := by
  obtain ⟨hdisj, -, -, -, rfl⟩ := configuredFields sclk mosi miso baseByte cfg m0 ma hnew hcfg
  rw [encodeByte]
  set cf := (if cfg.mode &&& cpol1Bit = 0 then if cfg.mode &&& cpha1Bit ≠ 0 then sclk else 0
    else if cfg.mode &&& cpha1Bit ≠ 0 then 0 else sclk) with hcfdef
  have hcf : cf &&& mosi = 0 := by
    rw [hcfdef]
    split_ifs <;> simp [hdisj, Nat.zero_and]
  refine ⟨?_, ?_, ?_⟩
  · intro i hi
    rw [encLoopGetDOdd _ _ _ _ _ _ 8 i b hi, encLoopGetDEven _ _ _ _ _ _ 8 i b hi]
  · intro j hj k hsk hmk
    have hcfk : cf.testBit k = false := by
      rw [hcfdef]
      split_ifs <;> simp [Nat.zero_testBit, hsk]
    have hscl : sclk &&& mosi = 0 := hdisj
    obtain ⟨i, rfl | rfl⟩ := Nat.even_or_odd' j
    · rw [encLoopGetDEven _ _ _ _ _ _ 8 i b (by omega)]
      simp only [Nat.testBit_or, hcfk, Bool.or_false]
      split
      · simp [hmk]
      · simp [Nat.zero_testBit]
    · rw [encLoopGetDOdd _ _ _ _ _ _ 8 i b (by omega)]
      simp only [Nat.testBit_xor, Nat.testBit_or, hcfk, hsk, Bool.or_false, Bool.xor_false]
      split
      · simp [hmk]
      · simp [Nat.zero_testBit]
  · intro i hi
    rw [encLoopGetDEven _ _ _ _ _ _ 8 i b hi]
    rw [firstHalfBit mosi cf baseByte _ hcf hbm hm]
    by_cases hl : cfg.mode &&& lsbfBit ≠ 0
    · rw [decide_eq_true hl]
      simp only [spiMask, if_true, shiftNLsbf]
      exact lsbfBitTest b i
    · rw [decide_eq_false hl]
      simp only [spiMask, Bool.false_eq_true, if_false, shiftNMsbf]
      exact msbfBitTest b i (by omega)

/-- Witness for claim C2 at mode M00, masks sclk=1 mosi=miso=16, byte 0x55:
the first pair of samples and the first-bit test. -/
theorem claimC2_witness :
    (encodeByte tConfLoop 85).getD 1 0 = (encodeByte tConfLoop 85).getD 0 0 ^^^ 1
      ∧ ((encodeByte tConfLoop 85).getD 0 0 &&& 16 ≠ 0 ↔ (85).testBit 7) := by
  have h := claimC2 1 16 16 0 ⟨0, 1, 0⟩ tFreshLoop tConfLoop 85
    (by decide) (by decide) (by decide) (by decide)
  exact ⟨h.1 0 (by norm_num), by simpa using h.2.2 0 (by norm_num)⟩

end Claim2

section WriterTrace

/-- One write-side step's effect: the new master state, the directives put on
the coordinator channel (in order), and the bytes handed to the driver (in
order).  Directive enqueue precedes the corresponding driver write in the
source; the two streams are kept separately here. -/
structure Emit where
  st : Master
  dirs : List Int
  outs : List Nat
deriving DecidableEq

/-- The delay-insertion prologue of writeByte (spi.go lines 224..239): with
delay > 0 and fn = flen it enqueues -delay*2, writes delay idle pairs
(base|cidle twice per pair) and resets fn to 0 before the increment; with
delay = 0 nothing happens and fn is not touched. -/
def delayStep (ma : Master) : Emit :=
  if 0 < ma.delay then
    if ma.fn = ma.flen then
      ⟨{ ma with fn := 1 }, [-(2 * (ma.delay : Int))],
        (List.replicate ma.delay [ma.base ||| ma.cidle, ma.base ||| ma.cidle]).flatten⟩
    else ⟨{ ma with fn := ma.fn + 1 }, [], []⟩
  else ⟨ma, [], []⟩

/-- writeByte of spi.go: delay prologue, then enqueue +16 and write the
16-sample window. -/
def writeByteTr (ma : Master) (b : Nat) : Emit :=
  let d := delayStep ma
  ⟨d.st, d.dirs ++ [16], d.outs ++ encodeByte d.st b⟩

/-- Master.Write of spi.go: writeByte per data byte, in order. -/
def writeTr (ma : Master) : List Nat → Emit
  | [] => ⟨ma, [], []⟩
  | b :: bs =>
    let e := writeByteTr ma b
    let r := writeTr e.st bs
    ⟨r.st, e.dirs ++ r.dirs, e.outs ++ r.outs⟩

/-- Master.WriteString of spi.go: the same per-byte loop over the string's
bytes (modelled, like the string, as a list of byte values). -/
def writeStringTr (ma : Master) : List Nat → Emit
  | [] => ⟨ma, [], []⟩
  | b :: bs =>
    let e := writeByteTr ma b
    let r := writeStringTr e.st bs
    ⟨r.st, e.dirs ++ r.dirs, e.outs ++ r.outs⟩

/-- The loop of Master.WriteN of spi.go: the window w is encoded once before
the loop; each iteration runs the delay prologue, enqueues +16 and writes w. -/
def writeNTrAux (w : List Nat) : Nat → Master → Emit
  | 0, ma => ⟨ma, [], []⟩
  | n + 1, ma =>
    let d := delayStep ma
    let r := writeNTrAux w n d.st
    ⟨r.st, (d.dirs ++ [16]) ++ r.dirs, (d.outs ++ w) ++ r.outs⟩

/-- Master.WriteN of spi.go. -/
def writeNTr (ma : Master) (b : Nat) (n : Nat) : Emit :=
  writeNTrAux (encodeByte ma b) n ma

/-- Master.Begin of spi.go (error-free run): flip flen positive, reset fn,
enqueue -(len(pre) + cpha1), write pre then, for CPHA1, one idle byte. -/
def beginTr (ma : Master) : Emit :=
  let ma1 : Master := { ma with flen := -ma.flen, fn := 0 }
  ⟨ma1, [-((ma.pre.length : Int) + (if ma.cpha1 then 1 else 0))],
    ma.pre ++ (if ma.cpha1 then [ma.base ||| ma.cidle] else [])⟩

/-- Master.End of spi.go (error-free run): flip flen negative, enqueue
-(len(post) + (1 - cpha1)), write one idle byte unless CPHA1, then post. -/
def endTr (ma : Master) : Emit :=
  let ma1 : Master := { ma with flen := -ma.flen }
  ⟨ma1, [-((ma.post.length : Int) + (if ma.cpha1 then 0 else 1))],
    (if ma.cpha1 then [] else [ma.base ||| ma.cidle]) ++ ma.post⟩

/-- A whole Begin / Write data / End transaction (error-free run). -/
def transactionTr (ma : Master) (data : List Nat) : Emit :=
  let b := beginTr ma
  let w := writeTr b.st data
  let e := endTr w.st
  ⟨e.st, b.dirs ++ w.dirs ++ e.dirs, b.outs ++ w.outs ++ e.outs⟩

/-- Outcome of a write entry point: the guard panic or the emitted traces. -/
inductive WriteAttempt where
  | panicked : WriteAttempt
  | proceeded : Emit → WriteAttempt
deriving DecidableEq

/-- Master.Write including its flen-sign guard (spi.go line 272: panic when
called outside a Begin:End block, detected as flen < 0). -/
def writeGo (ma : Master) (data : List Nat) : WriteAttempt :=
  if ma.flen < 0 then .panicked else .proceeded (writeTr ma data)

/-- Master.WriteString including its flen-sign guard. -/
def writeStringGo (ma : Master) (s : List Nat) : WriteAttempt :=
  if ma.flen < 0 then .panicked else .proceeded (writeStringTr ma s)

/-- Master.WriteByte including its flen-sign guard. -/
def writeByteGo (ma : Master) (b : Nat) : WriteAttempt :=
  if ma.flen < 0 then .panicked else .proceeded (writeByteTr ma b)

/-- Master.WriteN including its flen-sign guard. -/
def writeNGo (ma : Master) (b : Nat) (n : Nat) : WriteAttempt :=
  if ma.flen < 0 then .panicked else .proceeded (writeNTr ma b n)

/-- The encoder window does not depend on the frame counter. -/
theorem encodeByteDelayStep (ma : Master) (b : Nat) :
    encodeByte (delayStep ma).st b = encodeByte ma b := by
  rw [delayStep]
  split_ifs <;> rfl

/-- delayStep only changes the fn field. -/
theorem delayStepSt (ma : Master) :
    (delayStep ma).st = { ma with fn := (delayStep ma).st.fn } := by
  rw [delayStep]
  split_ifs <;> rfl

/-- writeByteTr only changes the fn field of the state. -/
theorem writeByteTrSt (ma : Master) (b : Nat) :
    (writeByteTr ma b).st = { ma with fn := (writeByteTr ma b).st.fn } := by
  rw [writeByteTr]
  exact delayStepSt ma

/-- writeTr only changes the fn field of the state. -/
theorem writeTrSt (data : List Nat) : ∀ ma : Master,
    (writeTr ma data).st = { ma with fn := (writeTr ma data).st.fn } := by
  induction data with
  | nil => intro ma; rfl
  | cons b bs ih =>
    intro ma
    rw [writeTr]
    simp only
    rw [ih (writeByteTr ma b).st]
    rw [writeByteTrSt ma b]

/-- writeTr distributes over list append, threading the state. -/
theorem writeTrAppend (xs : List Nat) : ∀ (ys : List Nat) (ma : Master),
    writeTr ma (xs ++ ys)
      = ⟨(writeTr (writeTr ma xs).st ys).st,
         (writeTr ma xs).dirs ++ (writeTr (writeTr ma xs).st ys).dirs,
         (writeTr ma xs).outs ++ (writeTr (writeTr ma xs).st ys).outs⟩ := by
  induction xs with
  | nil => intro ys ma; simp [writeTr]
  | cons b bs ih =>
    intro ys ma
    rw [List.cons_append, writeTr, writeTr]
    simp only [ih ys (writeByteTr ma b).st, List.append_assoc]

/-- Every encoded window is 16 samples long. -/
theorem encodeByteLen (ma : Master) (b : Nat) : (encodeByte ma b).length = 16 := by
  rw [encodeByte, encLoopLength]

/-- The delay block is 2*delay idle bytes long. -/
theorem flattenPairsLen (d : Nat) (x y : Nat) :
    ((List.replicate d [x, y]).flatten).length = 2 * d := by
  induction d with
  | zero => simp
  | succ d ih =>
    rw [List.replicate_succ, List.flatten_cons]
    simp only [List.length_append, ih, List.length_cons, List.length_nil]
    omega

/-- writeByte when the frame is full and delay is enabled: the delay block
(one -2*delay directive, 2*delay idle bytes) precedes the data window. -/
theorem writeByteTrBlock (ma : Master) (b : Nat) (hd : 0 < ma.delay) (hfn : ma.fn = ma.flen) :
    writeByteTr ma b = ⟨{ ma with fn := 1 },
      [-(2 * (ma.delay : Int)), 16],
      (List.replicate ma.delay [ma.base ||| ma.cidle, ma.base ||| ma.cidle]).flatten
        ++ encodeByte ma b⟩ := by
  simp only [writeByteTr, delayStep]
  rw [if_pos hd, if_pos hfn]
  rfl

/-- writeByte mid-frame with delay enabled: only fn is incremented. -/
theorem writeByteTrInc (ma : Master) (b : Nat) (hd : 0 < ma.delay) (hfn : ma.fn ≠ ma.flen) :
    writeByteTr ma b = ⟨{ ma with fn := ma.fn + 1 }, [16], encodeByte ma b⟩ := by
  simp only [writeByteTr, delayStep]
  rw [if_pos hd, if_neg hfn]
  rfl

/-- writeByte with delay disabled: fn is not consulted or changed. -/
theorem writeByteTrNoDelay (ma : Master) (b : Nat) (hd : ma.delay = 0) :
    writeByteTr ma b = ⟨ma, [16], encodeByte ma b⟩ := by
  simp only [writeByteTr, delayStep]
  rw [if_neg (by omega)]
  rfl

/-- Driver-byte count of a Write inside a transaction, generalized over the
frame counter: 16 bytes per data byte plus one 2*delay block each time the
counter, which enters at c, reaches F. -/
theorem writeTrLen (F : Nat) (hF : 1 ≤ F) :
    ∀ (data : List Nat) (ma : Master) (c : Nat),
      ma.flen = (F : Int) → ma.fn = (c : Int) → c ≤ F →
      (writeTr ma data).outs.length
        = 16 * data.length + 2 * ma.delay * ((data.length + c - 1) / F) := by
  intro data
  induction data with
  | nil =>
    intro ma c hflen hfn hc
    have hz : (c - 1) / F = 0 := Nat.div_eq_of_lt (by omega)
    rw [writeTr]
    simp [hz]
  | cons b bs ih =>
    intro ma c hflen hfn hc
    rw [writeTr]
    simp only [List.length_append]
    by_cases hd : 0 < ma.delay
    · by_cases hcF : c = F
      · rw [writeByteTrBlock ma b hd (by rw [hfn, hflen, hcF])]
        simp only [List.length_append, flattenPairsLen, encodeByteLen]
        rw [ih { ma with fn := 1 } 1 hflen rfl hF]
        simp only [List.length_cons]
        have h1 : bs.length + 1 - 1 = bs.length := by omega
        rw [h1]
        have harith : (bs.length + 1 + c - 1) / F = bs.length / F + 1 := by
          rw [hcF]
          have h2 : bs.length + 1 + F - 1 = bs.length + F := by omega
          rw [h2, Nat.add_div_right _ (by omega)]
        rw [harith]
        ring
      · rw [writeByteTrInc ma b hd (by rw [hfn, hflen]; exact_mod_cast hcF)]
        simp only [List.length_cons, List.length_nil, encodeByteLen]
        rw [ih { ma with fn := ma.fn + 1 } (c + 1) hflen (by rw [hfn]; push_cast; ring) (by omega)]
        simp only [List.length_cons]
        have harith : bs.length + (c + 1) - 1 = bs.length + 1 + c - 1 := by omega
        rw [harith]
        ring
    · have hd0 : ma.delay = 0 := by omega
      rw [writeByteTrNoDelay ma b hd0]
      simp only [List.length_cons, List.length_nil, encodeByteLen]
      rw [ih ma c hflen hfn hc, hd0]
      ring

end WriterTrace

section Claim3

/-- The test harness master of spi_test.go before Configure: sclk=0x01,
mosi=0x10, miso=0, pre=post=[0x80] not yet set. -/
def tFresh3 : Master := ⟨1, 16, 0, 0, 0, 0, false, false, 0, 0, 0, [], []⟩

/-- tFresh3 with pre=post=[0x80], configured with mode M00, FrameLen 1,
Delay 1. -/
def tConf3 : Master := ⟨1, 16, 0, 0, 0, 0, false, false, -1, 1, 0, [128], [128]⟩

/-- Counterexample to claim C3 as stated: writing N = 1 byte with FrameLen 1
and Delay 1 hands 19 bytes to the driver (no delay block is emitted before
the first frame boundary is crossed), while the claimed formula
len(pre) + 1 + 16*N + 2*delay*(N/F) + len(post) gives 21. -/
theorem claimC3_counterexample :
    newMaster 1 16 0 = some tFresh3
      ∧ configure (setPrePost (setBase tFresh3 0) [128] [128]) ⟨0, 1, 1⟩ = some tConf3
      ∧ (transactionTr tConf3 [85]).outs.length = 19
      ∧ tConf3.pre.length + 1 + 16 * 1 + 2 * tConf3.delay * (1 / 1) + tConf3.post.length = 21
      ∧ (transactionTr tConf3 [85]).outs.length
        ≠ tConf3.pre.length + 1 + 16 * 1 + 2 * tConf3.delay * (1 / 1) + tConf3.post.length := by
  refine ⟨by decide, by decide, by decide, by decide, by decide⟩

/-- Claim C3 (amended): for every transaction that writes N data bytes with
frame length F and delay setting delay, the total number of bytes handed to
the driver between Begin and End equals
len(pre) + 1 + 16*N + 2*delay*floor((N-1)/F) + len(post)
(the claim's floor(N/F) corrected to floor((N-1)/F), read as 0 when N = 0,
because the delay block is emitted lazily before the byte that starts the
next frame, so no block follows the final frame); the extra 1 is the
CPHA-dependent idle byte, written before the data if CPHA1 and after the
data if CPHA0. -/
theorem claimC3_amended (ma : Master) (F : Nat) (data : List Nat)
    (hflen : ma.flen = -(F : Int)) (hF : 1 ≤ F) :
    (transactionTr ma data).outs.length
      = ma.pre.length + 1 + 16 * data.length
        + 2 * ma.delay * ((data.length - 1) / F) + ma.post.length
    ∧ (transactionTr ma data).outs
      = ma.pre ++ (if ma.cpha1 then [ma.base ||| ma.cidle] else [])
        ++ (writeTr (beginTr ma).st data).outs
        ++ ((if ma.cpha1 then [] else [ma.base ||| ma.cidle]) ++ ma.post) := by
  have hw := writeTrLen F hF data (beginTr ma).st 0
    (by show -ma.flen = (F : Int); rw [hflen]; ring) rfl (by omega)
  have hn0 : data.length + 0 - 1 = data.length - 1 := by omega
  have hdly : (beginTr ma).st.delay = ma.delay := rfl
  rw [hn0, hdly] at hw
  constructor
  · rw [show (transactionTr ma data).outs
        = (beginTr ma).outs ++ (writeTr (beginTr ma).st data).outs
          ++ (endTr (writeTr (beginTr ma).st data).st).outs from rfl]
    rw [List.length_append, List.length_append, hw, writeTrSt]
    have hb : (beginTr ma).outs.length = ma.pre.length + (if ma.cpha1 then 1 else 0) := by
      rw [beginTr]
      cases ma.cpha1 <;> simp
    have he : (endTr { (beginTr ma).st with fn := (writeTr (beginTr ma).st data).st.fn }).outs.length
        = (if ma.cpha1 then 0 else 1) + ma.post.length := by
      rw [endTr]
      cases hcp : ma.cpha1 <;> simp [beginTr, hcp, Nat.add_comm]
    rw [hb, he]
    cases ma.cpha1 <;> simp <;> omega
  · rw [show (transactionTr ma data).outs
        = (beginTr ma).outs ++ (writeTr (beginTr ma).st data).outs
          ++ (endTr (writeTr (beginTr ma).st data).st).outs from rfl]
    rw [writeTrSt]
    rfl

/-- Witness for the amended claim C3: the S-style transaction of
claimC3_counterexample really hands 19 bytes to the driver. -/
theorem claimC3_amended_witness : (transactionTr tConf3 [85]).outs.length = 19 := by
  have h := (claimC3_amended tConf3 1 [85] (by decide) (by decide)).1
  rw [h]
  decide

end Claim3

section Claim8

/-- One step of the frame counter: a byte written when the frame is full
(fn = F) resets the counter to 1, otherwise it increments. -/
def fnNext (F c : Nat) : Nat := if c = F then 1 else c + 1

/-- The frame counter after n data bytes, starting from c. -/
def fnIter (F : Nat) : Nat -> Nat -> Nat
  | c, 0 => c
  | c, n + 1 => fnIter F (fnNext F c) n

/-- Closed form of the frame counter: after n >= 1 bytes from counter c it
sits at ((c + n - 1) mod F) + 1. -/
theorem fnIterMod (F : Nat) (hF : 1 <= F) :
    forall n c, c <= F -> 1 <= n -> fnIter F c n = (c + n - 1) % F + 1 := by
  intro n
  induction n with
  | zero => intro c _ h; omega
  | succ n ih =>
    intro c hc _
    rw [fnIter]
    cases n with
    | zero =>
      rw [fnIter, fnNext]
      split
      . rename_i hcF
        rw [hcF, show F + 1 - 1 = F by omega, Nat.mod_self]
      . rename_i hcF
        rw [show c + 1 - 1 = c by omega, Nat.mod_eq_of_lt (by omega)]
    | succ m =>
      rw [ih (fnNext F c) (by rw [fnNext]; split <;> omega) (by omega)]
      rw [fnNext]
      split
      . rename_i hcF
        rw [hcF, show 1 + (m + 1) - 1 = m + 1 by omega,
          show F + (m + 1 + 1) - 1 = F + (m + 1) by omega, Nat.add_mod_left]
      . congr 2
        omega

/-- The master's frame counter tracks fnIter along a Write (delay enabled). -/
theorem writeTrFnIter (F : Nat) (hF : 1 <= F) :
    forall (data : List Nat) (ma : Master) (c : Nat), 0 < ma.delay ->
      ma.flen = (F : Int) -> ma.fn = (c : Int) -> c <= F ->
      (writeTr ma data).st.fn = ((fnIter F c data.length : Nat) : Int) := by
  intro data
  induction data with
  | nil =>
    intro ma c _ _ hfn _
    simpa [writeTr, fnIter] using hfn
  | cons b bs ih =>
    intro ma c hd hflen hfn hc
    rw [writeTr]
    simp only
    rw [List.length_cons]
    by_cases hcF : c = F
    . rw [writeByteTrBlock ma b hd (by rw [hfn, hflen, hcF])]
      rw [ih { ma with fn := 1 } 1 hd hflen rfl hF]
      rw [show fnIter F c (bs.length + 1) = fnIter F (fnNext F c) bs.length from rfl]
      rw [show fnNext F c = 1 from by rw [fnNext, if_pos hcF]]
    . rw [writeByteTrInc ma b hd (by rw [hfn, hflen]; exact_mod_cast hcF)]
      rw [ih { ma with fn := ma.fn + 1 } (c + 1) hd hflen (by rw [hfn]; push_cast; ring)
        (by omega)]
      rw [show fnIter F c (bs.length + 1) = fnIter F (fnNext F c) bs.length from rfl]
      rw [show fnNext F c = c + 1 from by rw [fnNext, if_neg hcF]]

/-- With delay = 0 a Write emits only the data windows, one +16 directive per
byte, and leaves the whole master state (fn included) untouched. -/
theorem writeTrDelayZero :
    forall (data : List Nat) (ma : Master), ma.delay = 0 ->
      writeTr ma data
        = (Emit.mk ma (List.replicate data.length 16) ((data.map (encodeByte ma)).flatten)) := by
  intro data
  induction data with
  | nil => intro ma _; rfl
  | cons b bs ih =>
    intro ma h
    rw [writeTr, writeByteTrNoDelay ma b h]
    simp only
    rw [ih ma h]
    simp [List.replicate_succ]

/-- Claim C8: during a transaction with delay > 0 and frame length F, exactly
2*delay idle bytes, each of value base | cidle, are emitted between the k-th
multiple of F encoded data bytes and the next data byte, accompanied by a
single discard directive of -2*delay; with delay = 0 no idle bytes are ever
emitted between frames and fn is not consulted or changed. -/
theorem claimC8 (ma : Master) (F k : Nat) (xs : List Nat) (y : Nat) (ys : List Nat)
    (hflen : ma.flen = (F : Int)) (hF : 1 <= F) (hfn : ma.fn = 0)
    (hlen : xs.length = k * F) (hk : 1 <= k) :
    (0 < ma.delay ->
      (writeTr ma (xs ++ y :: ys)).outs
        = (writeTr ma xs).outs
          ++ (List.replicate ma.delay [ma.base ||| ma.cidle, ma.base ||| ma.cidle]).flatten
          ++ encodeByte ma y
          ++ (writeTr (writeByteTr (writeTr ma xs).st y).st ys).outs
      /\ (writeTr ma (xs ++ y :: ys)).dirs
        = (writeTr ma xs).dirs ++ [-(2 * (ma.delay : Int)), 16]
          ++ (writeTr (writeByteTr (writeTr ma xs).st y).st ys).dirs)
    /\ (ma.delay = 0 ->
      (writeTr ma (xs ++ y :: ys)).outs = ((xs ++ y :: ys).map (encodeByte ma)).flatten
      /\ (writeTr ma (xs ++ y :: ys)).st.fn = ma.fn) := by
  constructor
  . intro hd
    have hs1 := writeTrSt xs ma
    have hdl : (writeTr ma xs).st.delay = ma.delay := by rw [hs1]
    have hfl : (writeTr ma xs).st.flen = ma.flen := by rw [hs1]
    have hbase : (writeTr ma xs).st.base = ma.base := by rw [hs1]
    have hcid : (writeTr ma xs).st.cidle = ma.cidle := by rw [hs1]
    have hkF1 : 1 <= k * F := Nat.mul_pos hk hF
    have hfnval : (writeTr ma xs).st.fn = (F : Int) := by
      rw [writeTrFnIter F hF xs ma 0 hd hflen (by exact_mod_cast hfn) (by omega)]
      rw [hlen, fnIterMod F hF (k * F) 0 (by omega) hkF1]
      have e1 : (k - 1) * F + F = k * F := by
        have e0 : (k - 1 + 1) * F = k * F := by rw [show k - 1 + 1 = k from by omega]
        calc (k - 1) * F + F = (k - 1 + 1) * F := by ring
        _ = k * F := e0
      have e2 : 0 + k * F - 1 = F * (k - 1) + (F - 1) := by
        have e3 : (k - 1) * F = F * (k - 1) := Nat.mul_comm _ _
        omega
      rw [e2, Nat.mul_add_mod, Nat.mod_eq_of_lt (by omega)]
      push_cast
      omega
    have hfneq : (writeTr ma xs).st.fn = (writeTr ma xs).st.flen := by
      rw [hfnval, hfl, hflen]
    rw [writeTrAppend xs (y :: ys) ma]
    simp only
    rw [writeTr]
    simp only
    rw [writeByteTrBlock (writeTr ma xs).st y (by rw [hdl]; exact hd) hfneq]
    simp only
    rw [hdl, hbase, hcid]
    rw [show encodeByte (writeTr ma xs).st y = encodeByte ma y from by rw [hs1]; rfl]
    constructor
    . simp [List.append_assoc]
    . simp [List.append_assoc]
  . intro hd0
    rw [writeTrDelayZero (xs ++ y :: ys) ma hd0]
    exact ⟨rfl, rfl⟩

/-- The test master tConf3 just after Begin: flen flipped positive, fn = 0. -/
def tBegun3 : Master := Master.mk 1 16 0 0 0 0 false false 1 1 0 [128] [128]

/-- Witness for claim C8 with F = 1, delay = 1, k = 1: the delay block sits
between the first window and the second. -/
theorem claimC8_witness :
    (writeTr tBegun3 ([85] ++ 170 :: [])).outs
      = (writeTr tBegun3 [85]).outs
        ++ (List.replicate tBegun3.delay
            [tBegun3.base ||| tBegun3.cidle, tBegun3.base ||| tBegun3.cidle]).flatten
        ++ encodeByte tBegun3 170
        ++ (writeTr (writeByteTr (writeTr tBegun3 [85]).st 170).st []).outs :=
  ((claimC8 tBegun3 1 1 [85] 170 [] (by decide) (by decide) (by decide) (by decide)
    (by decide)).1 (by decide)).1

end Claim8

section Claim9

/-- The encoder window is unchanged by a preceding writeByte (only fn moves). -/
theorem encodeByteWriteByteTrSt (ma : Master) (c b : Nat) :
    encodeByte (writeByteTr ma c).st b = encodeByte ma b := by
  rw [writeByteTrSt ma c]
  rfl

/-- WriteN's loop with the precomputed window w equals Write over n copies of
the byte w encodes. -/
theorem writeNTrAuxEq : forall (n : Nat) (w : List Nat) (ma : Master) (b : Nat),
    w = encodeByte ma b -> writeNTrAux w n ma = writeTr ma (List.replicate n b) := by
  intro n
  induction n with
  | zero => intro w ma b _; rfl
  | succ n ih =>
    intro w ma b hw
    rw [List.replicate_succ, writeTr, writeNTrAux]
    rw [ih w (delayStep ma).st b (by rw [hw, encodeByteDelayStep])]
    rw [writeByteTr]
    rw [hw, encodeByteDelayStep]

/-- Claim C9: the four write entry points are equivalent per data byte: for
every master state, WriteString(s) emits the same state change, directive
stream and driver-byte stream as Write over the same bytes; WriteByte(b)
equals Write([b]); and WriteN(b,n), despite its separately inlined encoding
loop, equals Write over n copies of b.  (Write itself is the per-byte
writeByte loop, which is the definition of writeTr.) -/
theorem claimC9 (ma : Master) (s : List Nat) (b : Nat) (n : Nat) :
    writeStringTr ma s = writeTr ma s
    /\ writeByteTr ma b = writeTr ma [b]
    /\ writeNTr ma b n = writeTr ma (List.replicate n b) := by
  refine ⟨?_, ?_, writeNTrAuxEq n (encodeByte ma b) ma b rfl⟩
  . induction s generalizing ma with
    | nil => rfl
    | cons c cs ih =>
      rw [writeStringTr, writeTr]
      rw [ih (writeByteTr ma c).st]
  . rw [show writeTr ma [b]
        = Emit.mk (writeByteTr ma b).st ((writeByteTr ma b).dirs ++ [])
            ((writeByteTr ma b).outs ++ []) from rfl]
    simp

end Claim9

section Claim10

/-- Counterexample to claim C10 as stated: on a freshly constructed master on
which Configure has never been called, flen is 0, so the flen < 0 guard does
not fire and none of the four write APIs panics outside a transaction. -/
theorem claimC10_counterexample :
    newMaster 1 16 0 = some tFresh3
      /\ writeGo tFresh3 [85] ≠ WriteAttempt.panicked
      /\ writeStringGo tFresh3 [85] ≠ WriteAttempt.panicked
      /\ writeByteGo tFresh3 85 ≠ WriteAttempt.panicked
      /\ writeNGo tFresh3 85 1 ≠ WriteAttempt.panicked := by
  refine ⟨by decide, by decide, by decide, by decide, by decide⟩

/-- Claim C10 (amended): every write API (Write, WriteString, WriteByte,
WriteN) invoked outside a Begin/End transaction panics on any master on
which Configure has completed, because Configure leaves flen = -FrameLen < 0;
a freshly constructed master on which Configure has never been called has
flen = 0 and its write APIs proceed without panicking (see the
counterexample). -/
theorem claimC10_amended (ma ma2 : Master) (cfg : Config) (data s : List Nat) (b n : Nat)
    (hcfg : configure ma cfg = some ma2) :
    writeGo ma2 data = WriteAttempt.panicked
      /\ writeStringGo ma2 s = WriteAttempt.panicked
      /\ writeByteGo ma2 b = WriteAttempt.panicked
      /\ writeNGo ma2 b n = WriteAttempt.panicked := by
  rw [configure] at hcfg
  split at hcfg
  . exact absurd hcfg (by simp)
  . split at hcfg
    . exact absurd hcfg (by simp)
    . rename_i h1 h2
      rw [Option.some.injEq] at hcfg
      subst hcfg
      have hneg : (-cfg.frameLen : Int) < 0 := by omega
      refine ⟨?_, ?_, ?_, ?_⟩ <;> simp [writeGo, writeStringGo, writeByteGo, writeNGo, hneg]

/-- tFresh3 after Configure with mode M00, FrameLen 1, Delay 0. -/
def tConfC10 : Master := Master.mk 1 16 0 0 0 0 false false (-1) 0 0 [] []

/-- Witness for the amended claim C10: on the configured master, Write and
WriteN outside a transaction panic. -/
theorem claimC10_amended_witness :
    writeGo tConfC10 [85] = WriteAttempt.panicked
      /\ writeNGo tConfC10 85 2 = WriteAttempt.panicked := by
  have h := claimC10_amended tFresh3 tConfC10 (Config.mk 0 1 0) [85] [85] 85 2 (by decide)
  exact ⟨h.1, h.2.2.2⟩

end Claim10

section ReaderModel

/-- Reader-side failure kinds: the coordinator channel found closed (Read
returns the latched werr), a short/failed driver read (io.ErrUnexpectedEOF or
the ReadFull error), a receive that would block forever (never reached in the
claims), and a runtime panic (slice out of range, or part_002's explicit
panic on an impossible positive directive). -/
inductive RErr where
  | closedW (e : Option Nat)
  | eof
  | blocked
  | panicErr
deriving DecidableEq

/-- The inner directive loop of spi.go Read: pop directives, discarding -m
driver bytes for m <= 0 (m = 0 reads zero bytes), until m > 0. -/
def nextDirGo (closed : Bool) (werr : Option Nat) :
    List Int -> List Nat -> Except RErr (Int × List Int × List Nat)
  | [], _ => if closed then .error (.closedW werr) else .error .blocked
  | m :: rest, drv =>
    if 0 < m then .ok (m, rest, drv)
    else if drv.length < (-m).toNat then .error .eof
    else nextDirGo closed werr rest (drv.drop (-m).toNat)

/-- The inner directive loop of spi.go ReadN: identical except that it stops
already at m >= 0, so a flush mark 0 falls through to the window read. -/
def nextDirNGo (closed : Bool) (werr : Option Nat) :
    List Int -> List Nat -> Except RErr (Int × List Int × List Nat)
  | [], _ => if closed then .error (.closedW werr) else .error .blocked
  | m :: rest, drv =>
    if 0 ≤ m then .ok (m, rest, drv)
    else if drv.length < (-m).toNat then .error .eof
    else nextDirNGo closed werr rest (drv.drop (-m).toNat)

/-- Result of a Read/ReadN call: the decoded bytes plus the remaining
coordinator and driver streams, or the number of slots filled before an
error together with the error. -/
inductive RRes where
  | ok (out : List Nat) (tord : List Int) (drv : List Nat)
  | fail (k : Nat) (e : RErr)
deriving DecidableEq

/-- spi.go Read over n output slots: per slot, pop directives until m > 0,
then read m bytes (a slice panic if m > 16, a short read or m != 16 is an
unexpected EOF) and decode the 16-byte window. -/
def readGo (lsbf : Bool) (miso : Nat) (closed : Bool) (werr : Option Nat) :
    Nat -> List Int -> List Nat -> RRes
  | 0, tord, drv => .ok [] tord drv
  | n + 1, tord, drv =>
    match nextDirGo closed werr tord drv with
    | .error e => .fail 0 e
    | .ok (m, tord2, drv2) =>
      if 16 < m.toNat then .fail 0 .panicErr
      else if drv2.length < m.toNat then .fail 0 .eof
      else if m.toNat ≠ 16 then .fail 0 .eof
      else
        match readGo lsbf miso closed werr n tord2 (drv2.drop 16) with
        | .ok out tord3 drv3 => .ok (decLoop lsbf miso (drv2.take 16) 0 :: out) tord3 drv3
        | .fail k e => .fail (k + 1) e

/-- spi.go ReadN over n slots: as Read but the decoded window is discarded,
and the inner loop stops at m >= 0 instead of m > 0. -/
def readNGo (closed : Bool) (werr : Option Nat) :
    Nat -> List Int -> List Nat -> RRes
  | 0, tord, drv => .ok [] tord drv
  | n + 1, tord, drv =>
    match nextDirNGo closed werr tord drv with
    | .error e => .fail 0 e
    | .ok (m, tord2, drv2) =>
      if 16 < m.toNat then .fail 0 .panicErr
      else if drv2.length < m.toNat then .fail 0 .eof
      else if m.toNat ≠ 16 then .fail 0 .eof
      else
        match readNGo closed werr n tord2 (drv2.drop 16) with
        | .ok out tord3 drv3 => .ok out tord3 drv3
        | .fail k e => .fail (k + 1) e

/-- discard of src/unnamed/part_002 (lines 395..420): if the previous data
directive is still pending (dr), do nothing; otherwise pop directives,
reading and discarding -m driver bytes for each m < 0, until m = 16 (set dr,
do not touch the window) or a flush mark m = 0 (skipped only when ignf). -/
def discardP2 (closed : Bool) (werr : Option Nat) (ignf : Bool) :
    List Int -> List Nat -> Bool -> Except RErr (List Int × List Nat × Bool)
  | tord, drv, true => .ok (tord, drv, true)
  | [], _, false => if closed then .error (.closedW werr) else .error .blocked
  | m :: rest, drv, false =>
    if m = 16 then .ok (rest, drv, true)
    else if m = 0 then
      (if ignf then discardP2 closed werr ignf rest drv false else .ok (rest, drv, false))
    else if 0 < m then .error .panicErr
    else if drv.length < (-m).toNat then .error .eof
    else discardP2 closed werr ignf rest (drv.drop (-m).toNat) false

/-- Read of src/unnamed/part_002 with len(data) = 0: a single discard with
flush marks honored (ignf = false). -/
def readEmptyP2 (closed : Bool) (werr : Option Nat) (tord : List Int) (drv : List Nat)
    (dr : Bool) : Except RErr (List Int × List Nat × Bool) :=
  discardP2 closed werr false tord drv dr

end ReaderModel

section Claim5

/-- Claim C5: Read called with an empty buffer drains coordinator entries,
reading and discarding the overhead bytes named by each negative directive,
until it sees either a data directive (+16) or a flush mark (0); on a flush
mark it returns; it does not consume the data directive's window (only the
dr flag is set; the driver stream is advanced solely by the overhead).
This is the empty-buffer drain of src/unnamed/part_002's Read/discard. -/
theorem claimC5 (closed : Bool) (werr : Option Nat) (negs : List Int) (t : Int)
    (rest : List Int) (drv : List Nat)
    (hnegs : ∀ m ∈ negs, m < 0)
    (ht : t = 0 ∨ t = 16)
    (hdrv : (negs.map (fun m => (-m).toNat)).sum ≤ drv.length) :
    readEmptyP2 closed werr (negs ++ t :: rest) drv false
      = .ok (rest, drv.drop ((negs.map (fun m => (-m).toNat)).sum), decide (t = 16)) := by
  induction negs generalizing drv with
  | nil =>
    rcases ht with rfl | rfl
    . simp [readEmptyP2, discardP2]
    . simp [readEmptyP2, discardP2]
  | cons m negs ih =>
    have hm : m < 0 := hnegs m (by simp)
    have hsum : ((m :: negs).map (fun m => (-m).toNat)).sum
        = (-m).toNat + (negs.map (fun m => (-m).toNat)).sum := by
      simp
    rw [hsum] at hdrv
    rw [readEmptyP2, List.cons_append, discardP2]
    rw [if_neg (by omega), if_neg (by omega), if_neg (by omega),
      if_neg (by push_neg; omega)]
    have ihx := ih (drv.drop (-m).toNat) (fun x hx => hnegs x (List.mem_cons_of_mem m hx))
      (by simp only [List.length_drop]; omega)
    rw [readEmptyP2] at ihx
    rw [ihx, List.drop_drop, hsum]

/-- Witness for claim C5: one -1 overhead directive, then a +16 data
directive: the drain discards one driver byte, stops, sets dr, and leaves
the rest of the driver stream (the data window's bytes) unread. -/
theorem claimC5_witness :
    readEmptyP2 false none ([-1] ++ 16 :: [7]) [9, 5] false
      = .ok ([7], [5], true) := by
  have h := claimC5 false none [-1] 16 [7] [9, 5] (by decide) (by decide) (by decide)
  rw [h]
  rfl

end Claim5

section Claim6

/-- Claim C6 (code bug): a flush-mark directive 0 is skipped without error by
Read, but spi.go's ReadN breaks out of its directive loop already at m >= 0
and then demands a 16-byte window, so the same stream that lets
Read(1 byte) succeed makes ReadN(1) fail after 0 bytes with an
unexpected-EOF error.  The directive stream [0, 16] is produced by a real
write sequence: Begin with empty pre under CPHA0 enqueues -0 = 0, and one
data byte enqueues +16. -/
theorem claimC6_bug :
    (beginTr tConfC10).dirs ++ (writeTr (beginTr tConfC10).st [85]).dirs = [0, 16]
    ∧ readGo false 0 false none 1 [0, 16] (List.replicate 16 0) = RRes.ok [0] [] []
    ∧ readNGo false none 1 [0, 16] (List.replicate 16 0) = RRes.fail 0 RErr.eof := by
  refine ⟨by decide, by decide, by decide⟩

end Claim6

section Claim7

/-- Write-side state with the error latch: the master fields plus whether the
coordinator channel has been closed and the latched werr value. spi.go's
werror sets werr and closes the channel together. -/
structure EMaster where
  ma : Master
  closed : Bool
  werr : Option Nat
deriving DecidableEq

/-- Outcome of a write-path call on the error model: a runtime panic, a
returned error value, or normal completion. -/
inductive CallOut where
  | panicked
  | errored (e : Nat)
  | ok (s : EMaster)
deriving DecidableEq

/-- Begin of spi/spi.go, driver errors aside: it takes the mutex, flips flen
and resets fn, then immediately calls tordFlush, which sends on the
coordinator channel -- with no werr check first.  A send on a closed Go
channel is a runtime panic. -/
def beginGoE (s : EMaster) : CallOut :=
  let ma1 : Master := { s.ma with flen := -s.ma.flen, fn := 0 }
  if s.closed then CallOut.panicked
  else CallOut.ok { s with ma := ma1 }

/-- Begin of src/unnamed/part_002: if a write error is latched, release the
mutex and return it; otherwise as spi/spi.go. -/
def beginP2E (s : EMaster) : CallOut :=
  match s.werr with
  | some e => CallOut.errored e
  | none =>
    let ma1 : Master := { s.ma with flen := -s.ma.flen, fn := 0 }
    if s.closed then CallOut.panicked
    else CallOut.ok { s with ma := ma1 }

/-- Write of spi/spi.go, driver errors aside: the flen guard, then per byte a
tordFlush send -- again with no werr check, so a closed coordinator means a
panic on the first byte. -/
def writeGoE (s : EMaster) (data : List Nat) : CallOut :=
  if s.ma.flen < 0 then CallOut.panicked
  else if data.isEmpty then CallOut.ok s
  else if s.closed then CallOut.panicked
  else CallOut.ok { s with ma := (writeTr s.ma data).st }

/-- Write of src/unnamed/part_002: returns the latched werr first. -/
def writeP2E (s : EMaster) (data : List Nat) : CallOut :=
  match s.werr with
  | some e => CallOut.errored e
  | none =>
    if s.ma.flen < 0 then CallOut.panicked
    else if data.isEmpty then CallOut.ok s
    else if s.closed then CallOut.panicked
    else CallOut.ok { s with ma := (writeTr s.ma data).st }

/-- Claim C7 (code bug, evaluated at the failing input): with a write error
latched (werr = some 7, coordinator closed) on the in-transaction test
master, spi/spi.go's Begin does not return the latched error -- it reaches
tordFlush and sends on the closed channel, a runtime panic -- and Write
panics the same way; the sibling revision part_002, which the claim and spec
describe, returns the latched error from both. -/
theorem claimC7_bug :
    beginGoE (EMaster.mk tBegun3 true (some 7)) = CallOut.panicked
    ∧ beginGoE (EMaster.mk tBegun3 true (some 7)) ≠ CallOut.errored 7
    ∧ writeGoE (EMaster.mk tBegun3 true (some 7)) [85] = CallOut.panicked
    ∧ beginP2E (EMaster.mk tBegun3 true (some 7)) = CallOut.errored 7
    ∧ writeP2E (EMaster.mk tBegun3 true (some 7)) [85] = CallOut.errored 7 := by
  refine ⟨by decide, by decide, by decide, by decide, by decide⟩

end Claim7

section Claim4

/-- Modelled from the spec: WriteRead is absent from src/ (spec section 4.8
describes it; no revision in the tree defines it).  The write stream of
WriteRead(out, in): if len(in) > len(out), out is extended by repeating its
last byte (or 0 if out is empty) len(in) - len(out) times; otherwise out is
sent as is. -/
def wrSent (outB : List Nat) (inLen : Nat) : List Nat :=
  if outB.length < inLen then
    outB ++ List.replicate (inLen - outB.length) (outB.getLast?.getD 0)
  else outB

/-- Modelled from the spec: the full WriteRead(out, in) exchange at the
SPI-byte level.  Each sent byte produces one received byte (the synchronous
driver contract), modelled by the per-byte slave response; in receives the
first len(in) bytes and the rest are discarded; a driver error (drvErr)
yields an error return instead. -/
def writeReadModel (outB : List Nat) (inLen : Nat) (slave : Nat -> Nat) (drvErr : Bool) :
    Option (Nat × List Nat) :=
  if drvErr then none
  else some (inLen, ((wrSent outB inLen).map slave).take inLen)

/-- Claim C4: WriteRead(out, in) performs a single transaction whose SPI byte
count is max(len(out), len(in)); when len(in) > len(out) the write stream is
extended by repeating out's last byte (or 0 if out is empty); when
len(in) < len(out) the last len(out) - len(in) received bytes are discarded
(in gets exactly the first len(in) responses to out); and it returns
n = len(in) with in fully populated iff no driver error occurred. -/
theorem claimC4 (outB : List Nat) (inLen : Nat) (slave : Nat -> Nat) :
    (wrSent outB inLen).length = max outB.length inLen
    ∧ (outB.length < inLen ->
        wrSent outB inLen
          = outB ++ List.replicate (inLen - outB.length) (outB.getLast?.getD 0))
    ∧ (inLen ≤ outB.length ->
        ((wrSent outB inLen).map slave).take inLen = (outB.map slave).take inLen)
    ∧ (∀ n filled, writeReadModel outB inLen slave false = some (n, filled) ->
        n = inLen ∧ filled.length = inLen)
    ∧ writeReadModel outB inLen slave true = none := by
  refine ⟨?_, ?_, ?_, ?_, rfl⟩
  . rw [wrSent]
    split
    . rename_i hlt
      simp only [List.length_append, List.length_replicate]
      omega
    . rename_i hge
      omega
  . intro hlt
    rw [wrSent, if_pos hlt]
  . intro hge
    rw [wrSent, if_neg (by omega)]
  . intro n filled h
    rw [writeReadModel, if_neg (by simp)] at h
    rw [Option.some.injEq, Prod.mk.injEq] at h
    obtain ⟨hn, hf⟩ := h
    refine ⟨hn.symm, ?_⟩
    rw [← hf, List.length_take, List.length_map]
    have hlen : (wrSent outB inLen).length = max outB.length inLen := by
      rw [wrSent]
      split
      . rename_i hlt
        simp only [List.length_append, List.length_replicate]
        omega
      . rename_i hge
        omega
    rw [hlen]
    omega

/-- Witness for claim C4: out = [1,2], len(in) = 3: the write stream is
extended with one copy of 2 and has length max(2,3) = 3. -/
theorem claimC4_witness :
    (wrSent [1, 2] 3).length = max ([1, 2] : List Nat).length 3
      ∧ wrSent [1, 2] 3 = [1, 2] ++ List.replicate 1 2 := by
  have h := claimC4 [1, 2] 3 id
  exact ⟨h.1, by simpa using h.2.1 (by norm_num)⟩

end Claim4




end BitbangSpi
